import Mathlib

/-!
Verification development for the upstream version resolution and recipe
synchronization engine of the meso-forge repository.

Python strings are modelled as `List Char` (a Python `str` is a sequence of
code points).  The embedded functions mirror, line by line, the Python
sources:

* `scripts/plugins_source/github_plugin.py` (tag cleaning, pattern filtering,
  `_sort_and_get_latest`, `can_handle`),
* `scripts/git_plugin.py` (`_clean_tag_name`, `can_handle`),
* `.scripts/version_ctl.py` (`calculate_sha256`, `replace_version_string`,
  `update_recipe_source`, the exit-code logic of `main`).

Notes on modelling granularity: `\d` in the version regular expressions and
`str.isdigit`-like checks are modelled over ASCII digits; `str.splitlines`
is modelled for line-feed separated text, the form the recipe files use;
`str.strip` uses `Char.isWhitespace`.  Network, file system and the
conda-forge statistics lookup (side-channel only, it never gates the update
decision) are abstracted into explicit parameters.
-/

/-- A Python string, modelled as its sequence of characters. -/
abbrev PyStr := List Char

/-- Conversion from a Lean string literal to the Python string model. -/
def pyStr (s : String) : PyStr := s.toList

/-- Whitespace test used by the model of Python `str.strip`. -/
def isSpaceChar (c : Char) : Bool := c.isWhitespace

/-- Model of Python `str.strip()`: remove leading and trailing whitespace. -/
def pyStrip (s : PyStr) : PyStr :=
  ((s.dropWhile isSpaceChar).reverse.dropWhile isSpaceChar).reverse

/-- Model of Python `str.split(sep)` for a one-character separator. -/
def pySplit (sep : Char) : PyStr → List PyStr
  | [] => [[]]
  | c :: t =>
    match pySplit sep t with
    | [] => [[]]
    | h :: r => if c = sep then [] :: h :: r else (c :: h) :: r

/-- Model of Python `str.splitlines()` for line-feed separated text: like
splitting on the line feed, except that a trailing line terminator does not
produce a final empty line and the empty string has no lines. -/
def pySplitlines (s : PyStr) : List PyStr :=
  match s with
  | [] => []
  | _ =>
    let parts := pySplit '\n' s
    if parts.getLast? = some [] then parts.dropLast else parts

/-- Model of `'\n'.join(lines)`. -/
def joinNl : List PyStr → PyStr
  | [] => []
  | [l] => l
  | l :: ls => l ++ '\n' :: joinNl ls

/-- Break a string at the first occurrence of a separator character,
returning the part before it and, when the separator occurs, the part
after it. -/
def breakAtFirst (sep : Char) : PyStr → PyStr × Option PyStr
  | [] => ([], none)
  | c :: t =>
    if c = sep then ([], some t)
    else
      let p := breakAtFirst sep t
      (c :: p.1, p.2)

/-- Fuel-indexed worker for the model of Python `str.replace`; the fuel,
always at least the string length at call sites, makes the recursion
structural. -/
def replaceAllGo (pat rep : PyStr) : Nat → PyStr → PyStr
  | _, [] => []
  | 0, s => s
  | fuel + 1, c :: t =>
    if !pat.isEmpty && pat.isPrefixOf (c :: t) then
      rep ++ replaceAllGo pat rep fuel ((c :: t).drop pat.length)
    else
      c :: replaceAllGo pat rep fuel t

/-- Model of Python `str.replace(pat, rep)` for a nonempty `pat`: replace
every occurrence, scanning left to right, non-overlapping.  (For the empty
pattern, which no call site uses, the model returns the string unchanged.) -/
def replaceAll (pat rep s : PyStr) : PyStr := replaceAllGo pat rep s.length s

/-- The prefix of a string that stands before the first occurrence of a
pattern (the whole string when the pattern does not occur); models the
Python slice `line[:line.index(pat)]` at call sites where the pattern is
known to occur. -/
def takeBeforeSub (pat : PyStr) : PyStr → PyStr
  | [] => []
  | c :: t =>
    if pat.isPrefixOf (c :: t) then []
    else c :: takeBeforeSub pat t

/-- The rest of a string after the first occurrence of a pattern, when the
pattern occurs. -/
def afterFirstSub (pat : PyStr) : PyStr → Option PyStr
  | [] => none
  | c :: t =>
    if pat.isPrefixOf (c :: t) then some ((c :: t).drop pat.length)
    else afterFirstSub pat t

/-- A semantic-version prerelease identifier: numeric, or alphanumeric
(compared as a string). -/
inductive PreIdent where
  | num (n : Nat)
  | alnum (s : PyStr)
  deriving DecidableEq

/-- The result of `semver.VersionInfo.parse`: major, minor and patch
numbers, the optional prerelease identifiers and the optional build
metadata (the latter never participates in ordering). -/
structure SemVer where
  major : Nat
  minor : Nat
  patch : Nat
  prerelease : Option (List PreIdent)
  buildmeta : Option PyStr
  deriving DecidableEq

/-- Characters allowed in prerelease and build identifiers. -/
def isIdentChar (c : Char) : Bool := c.isAlphanum || c = '-'

/-- Numeric value of a digit string. -/
def parseNatDigits (s : PyStr) : Nat :=
  s.foldl (fun n c => 10 * n + (c.toNat - ('0').toNat)) 0

/-- Parse a numeric identifier: nonempty, all digits, no leading zero. -/
def parseNumIdent (s : PyStr) : Option Nat :=
  if s.isEmpty then none
  else if s.all Char.isDigit then
    if 1 < s.length && s.head? = some '0' then none
    else some (parseNatDigits s)
  else none

/-- Parse one prerelease identifier: nonempty, allowed characters only,
numeric identifiers must not have leading zeros. -/
def parsePreIdent (s : PyStr) : Option PreIdent :=
  if s.isEmpty then none
  else if !s.all isIdentChar then none
  else if s.all Char.isDigit then (parseNumIdent s).map .num
  else some (.alnum s)

/-- Validity of one build-metadata identifier. -/
def isBuildIdent (s : PyStr) : Bool := !s.isEmpty && s.all isIdentChar

/-- Model of `semver.VersionInfo.parse`, per the semver 2.0 grammar the
library implements: `MAJOR.MINOR.PATCH` with optional `-prerelease` and
`+build` parts; returns `none` exactly when the library raises
`ValueError`. -/
def parseSemver (s : PyStr) : Option SemVer :=
  let p1 := breakAtFirst '+' s
  let p2 := breakAtFirst '-' p1.1
  match pySplit '.' p2.1 with
  | [m1, m2, m3] =>
    match parseNumIdent m1, parseNumIdent m2, parseNumIdent m3 with
    | some major, some minor, some patch =>
      let pre : Option (Option (List PreIdent)) :=
        match p2.2 with
        | none => some none
        | some p =>
          match (pySplit '.' p).mapM parsePreIdent with
          | some ids => some (some ids)
          | none => none
      let buildOk : Bool :=
        match p1.2 with
        | none => true
        | some b => (pySplit '.' b).all isBuildIdent
      match pre, buildOk with
      | some pr, true => some ⟨major, minor, patch, pr, p1.2⟩
      | _, _ => none
    | _, _, _ => none
  | _ => none

/-- Ordering key of a prerelease identifier: numeric identifiers order
below alphanumeric ones, numerically among themselves; alphanumeric ones
order as strings. -/
abbrev IdentKey := Lex (Nat ⊕ PyStr)

/-- Key of one prerelease identifier. -/
def preIdentKey : PreIdent → IdentKey
  | .num n => toLex (Sum.inl n)
  | .alnum s => toLex (Sum.inr s)

/-- Ordering key of the prerelease part: a release (no prerelease) orders
above every prerelease; prereleases compare identifier by identifier,
a shorter identifier list ordering below its extensions. -/
abbrev PreKey := Lex (Bool × List IdentKey)

/-- Key of the optional prerelease part. -/
def preKey : Option (List PreIdent) → PreKey
  | none => toLex (true, [])
  | some ids => toLex (false, ids.map preIdentKey)

/-- Full ordering key of a parsed semantic version; build metadata is
ignored, exactly as in the semver comparison the Python code relies on. -/
abbrev SemKey := Lex (Nat × Lex (Nat × Lex (Nat × PreKey)))

/-- Ordering key of a semantic version. -/
def semverKey (v : SemVer) : SemKey :=
  toLex (v.major, toLex (v.minor, toLex (v.patch, preKey v.prerelease)))

/-- Sort key used when the candidate list is ranked semantically: a parsed
version keys as its semver key; an unparsable string keys at the bottom.
The code only ranks with this key when every candidate parses, so the
bottom value never occurs there. -/
abbrev SortKey := Lex (Bool × SemKey)

/-- Key of a raw version string under semantic ranking. -/
def parsedKey (s : PyStr) : SortKey :=
  match parseSemver s with
  | none => toLex (false, semverKey ⟨0, 0, 0, none, none⟩)
  | some v => toLex (true, semverKey v)

section StableSort

variable {β : Type} {κ : Type} [LinearOrder κ]

/-- One insertion step of a stable descending sort by key: the new element,
which stands earlier in the original enumeration than everything already
sorted, goes in front of the first element whose key does not exceed it. -/
def insertDescBy (key : β → κ) (a : β) : List β → List β
  | [] => [a]
  | b :: l => if key b ≤ key a then a :: b :: l else b :: insertDescBy key a l

/-- Stable descending insertion sort by key; models Python
`list.sort(key=key, reverse=True)`, which is stable and keeps elements with
equal keys in their original order. -/
def sortDescBy (key : β → κ) : List β → List β
  | [] => []
  | a :: l => insertDescBy key a (sortDescBy key l)

/-- The first element of a list attaining the maximal key. -/
def firstMaxBy (key : β → κ) : List β → Option β
  | [] => none
  | a :: l =>
    match firstMaxBy key l with
    | none => some a
    | some b => if key b ≤ key a then some a else some b

end StableSort

/-- The `VersionInfo` value type produced by every resolver plugin
(`scripts/__init__.py`). -/
structure VersionInfo where
  version : PyStr
  download_url : Option PyStr := none
  tag_name : Option PyStr := none
  source_type : PyStr := pyStr "unknown"
  asset_name : Option PyStr := none
  deriving DecidableEq

/-- Model of `GitHubPlugin._sort_and_get_latest`
(`scripts/plugins_source/github_plugin.py`, lines 285-308): an empty list
yields nothing; otherwise the list is sorted descending by parsed semantic
version and the head returned — Python computes all sort keys before any
reordering, so if any candidate fails to parse the list is left untouched
and is instead sorted descending by the raw version string.  The
try/except is therefore an all-or-nothing choice of comparator, expressed
here as a test that every candidate parses. -/
def sort_and_get_latest (versions : List VersionInfo) : Option VersionInfo :=
  match versions with
  | [] => none
  | _ :: _ =>
    if versions.all (fun v => (parseSemver v.version).isSome) then
      (sortDescBy (fun v => parsedKey v.version) versions).head?
    else
      (sortDescBy (fun v => v.version) versions).head?

/-- Lowercasing of a Python string. -/
def toLowerStr (s : PyStr) : PyStr := s.map Char.toLower

/-- The prefix list of `GitHubPlugin._clean_tag_name`. -/
def githubPrefixes : List PyStr :=
  [pyStr "v", pyStr "V", pyStr "version", pyStr "release",
   pyStr "Release", pyStr "VERSION", pyStr "RELEASE"]

/-- Strip the first case-insensitively matching prefix from the list, if
any; the loop breaks after the first hit. -/
def stripFirstMatching (tag : PyStr) : List PyStr → PyStr
  | [] => tag
  | p :: ps =>
    if (toLowerStr p).isPrefixOf (toLowerStr tag) then tag.drop p.length
    else stripFirstMatching tag ps

/-- Model of `GitHubPlugin._clean_tag_name`
(`scripts/plugins_source/github_plugin.py`, lines 274-283).  The package
name parameter is accepted but never used by this implementation. -/
def github_clean_tag_name (tag_name _package_name : PyStr) : PyStr :=
  stripFirstMatching tag_name githubPrefixes

/-- Model of `GitPlugin._clean_tag_name` (`scripts/git_plugin.py`, lines
270-277): when the tag starts with the package name, drop it together with
the single following character; then drop one leading lowercase `v`. -/
def git_clean_tag_name (tag_name package_name : PyStr) : PyStr :=
  let cleaned :=
    if package_name.isPrefixOf tag_name then
      tag_name.drop (package_name.length + 1)
    else tag_name
  if (pyStr "v").isPrefixOf cleaned then cleaned.drop 1 else cleaned

/-- The two concrete version regular expressions the claims exercise. -/
inductive VPattern where
  | corePat
  | vCorePat
  deriving DecidableEq

/-- Greedy match of a version core `\d+\.\d+\.\d+` at the start of a
string, returning the matched text: the capture group of the pattern
`^(\d+\.\d+\.\d+)`. -/
def matchCore (s : PyStr) : Option PyStr :=
  let d1 := s.takeWhile Char.isDigit
  let r1 := s.drop d1.length
  if d1.isEmpty then none
  else
    match r1 with
    | '.' :: r1' =>
      let d2 := r1'.takeWhile Char.isDigit
      let r2 := r1'.drop d2.length
      if d2.isEmpty then none
      else
        match r2 with
        | '.' :: r2' =>
          let d3 := r2'.takeWhile Char.isDigit
          if d3.isEmpty then none
          else some (d1 ++ '.' :: d2 ++ '.' :: d3)
        | _ => none
    | _ => none

/-- Model of `re.match(pattern, s)` for the two concrete patterns,
returning the first capture group: `corePat` is `^(\d+\.\d+\.\d+)` (the
default pattern of the resolvers) and `vCorePat` is `^v(\d+\.\d+\.\d+)`. -/
def reMatchVersion : VPattern → PyStr → Option PyStr
  | .corePat, s => matchCore s
  | .vCorePat, s =>
    match s with
    | 'v' :: t => matchCore t
    | _ => none

/-- Apply the patterns in order and keep the first match, as the
per-candidate pattern loop of the resolvers does. -/
def firstPatternMatch : List VPattern → PyStr → Option PyStr
  | [], _ => none
  | p :: ps, s =>
    match reMatchVersion p s with
    | some v => some v
    | none => firstPatternMatch ps s

/-- The deterministic source-archive URL constructed for a tag
(`github_plugin.py`, line 234). -/
def tarballUrl (owner repo tag : PyStr) : PyStr :=
  pyStr "https://github.com/" ++ owner ++ pyStr "/" ++ repo ++
    pyStr "/archive/refs/tags/" ++ tag ++ pyStr ".tar.gz"

/-- Model of `GitHubPlugin._get_latest_tag`
(`scripts/plugins_source/github_plugin.py`, lines 185-254) after the tag
names have been fetched: empty pattern list defaults to the core pattern;
each nonempty tag name is normalized by `_clean_tag_name`, the first
matching pattern's capture becomes the candidate version; no candidate
yields nothing, otherwise `_sort_and_get_latest` selects the result. -/
def github_get_latest_tag (owner repo : PyStr) (tags : List PyStr)
    (package_name : PyStr) (version_patterns : List VPattern) :
    Option VersionInfo :=
  match tags with
  | [] => none
  | _ :: _ =>
    let pats := if version_patterns.isEmpty then [.corePat] else version_patterns
    let valid_tags := tags.filterMap fun tag_name =>
      if tag_name.isEmpty then none
      else
        (firstPatternMatch pats (github_clean_tag_name tag_name package_name)).map
          fun version =>
            { version := version
              download_url := some (tarballUrl owner repo tag_name)
              tag_name := some tag_name
              source_type := pyStr "github" : VersionInfo }
    match valid_tags with
    | [] => none
    | _ :: _ => sort_and_get_latest valid_tags

/-- Substring test, modelling Python's `in` on strings. -/
def isSubOf (pat s : PyStr) : Bool := decide (pat <:+: s)

/-- The scheme list of `GitHubPlugin.supported_schemes`. -/
def githubSupportedSchemes : List PyStr :=
  [pyStr "https://github.com", pyStr "https://api.github.com",
   pyStr "git+https://github.com"]

/-- Model of `GitHubPlugin.can_handle`
(`scripts/plugins_source/github_plugin.py`, lines 35-37): true when any
supported scheme occurs inside the URL (Python substring test). -/
def github_can_handle (source_url : PyStr) : Bool :=
  githubSupportedSchemes.any fun scheme => isSubOf scheme source_url

/-- The scheme list of `GitPlugin.supported_schemes`. -/
def gitSupportedSchemes : List PyStr :=
  [pyStr "git://", pyStr "git+https://", pyStr "git+ssh://", pyStr "ssh://git@"]

/-- The hosting services excluded by the `.git`-suffix branch of
`GitPlugin.can_handle`. -/
def excludedHosts : List PyStr :=
  [pyStr "github.com", pyStr "gitlab.com", pyStr "bitbucket.org"]

/-- Model of `urllib.parse.urlparse(url).netloc` for URLs of the form
`scheme://netloc/...`: the text after the first `://` up to the next `/`,
`?` or `#`; empty when the URL has no `://`. -/
def urlNetloc (url : PyStr) : PyStr :=
  match afterFirstSub (pyStr "://") url with
  | some rest => rest.takeWhile fun c => c ≠ '/' && c ≠ '?' && c ≠ '#'
  | none => []

/-- Model of `GitPlugin.can_handle` (`scripts/git_plugin.py`, lines
36-49): true when a Git transport scheme occurs inside the URL; otherwise,
for URLs ending in `.git`, true exactly when the host is not one of the
excluded hosting services. -/
def git_can_handle (source_url : PyStr) : Bool :=
  if gitSupportedSchemes.any (fun scheme => isSubOf scheme source_url) then
    true
  else if (pyStr ".git").isSuffixOf source_url then
    !(excludedHosts.contains (urlNetloc source_url))
  else
    false

/-- Outcome of one attempted download-and-hash, abstracting the network:
`ok digest` is an HTTP 200 response whose streamed body hashed to
`digest`; the other constructors are the failure branches of
`calculate_sha256` (`version_ctl.py`, lines 136-153). -/
inductive DownloadResult where
  | ok (digest : PyStr)
  | httpError (code : Nat)
  | timeout
  | connectionError
  | otherError
  deriving DecidableEq

/-- Model of `calculate_sha256` (`version_ctl.py`, lines 136-153): the hex
digest on success, `None` on a non-200 status, timeout, connection error
or any other exception. -/
def calculate_sha256 : DownloadResult → Option PyStr
  | .ok digest => some digest
  | .httpError _ => none
  | .timeout => none
  | .connectionError => none
  | .otherError => none

/-- The test `line.strip().startswith('version:')` of
`replace_version_string`. -/
def isVersionLine (l : PyStr) : Bool := (pyStr "version:").isPrefixOf (pyStrip l)

/-- The loop body of `replace_version_string` (`version_ctl.py`, lines
156-165): rewrite the first line whose stripped text starts with
`version:`, keeping the text before the first occurrence of `version:`
(the indentation) and double-quoting the new version; leave every other
line unchanged. -/
def rewriteFirstVersionLine (new_version : PyStr) : List PyStr → List PyStr
  | [] => []
  | l :: ls =>
    if isVersionLine l then
      (takeBeforeSub (pyStr "version:") l ++ pyStr "version: \"" ++
        new_version ++ pyStr "\"") :: ls
    else l :: rewriteFirstVersionLine new_version ls

/-- Model of `replace_version_string` (`version_ctl.py`, lines 156-165):
split into lines, rewrite the first version line, join with line feeds. -/
def replace_version_string (content new_version : PyStr) : PyStr :=
  joinNl (rewriteFirstVersionLine new_version (pySplitlines content))

/-- The file mutation of the `url` branch of `update_recipe_source`
(`version_ctl.py`, lines 717-722): rewrite the version line, replace every
occurrence of the old sha256 by the new hash, and write the stripped
result. -/
def applyUrlUpdate (content old_sha new_version new_hash : PyStr) : PyStr :=
  pyStrip (replaceAll old_sha new_hash (replace_version_string content new_version))

/-- The fields of one recipe source mapping that `update_recipe_source`
reads: presence of a `path` key, the optional `url` and `git` values and
the optional `sha256` value. -/
structure SourceFields where
  hasPath : Bool
  url : Option PyStr
  git : Option PyStr
  sha256 : Option PyStr

/-- A recipe source entry, possibly wrapped in a conditional: the code
unwraps `source['then']` when an `if` key is present. -/
inductive SourceEntry where
  | plain (f : SourceFields)
  | conditional (thenFields : SourceFields)

/-- The conditional unwrap at the top of `update_recipe_source`. -/
def unwrapSource : SourceEntry → SourceFields
  | .plain f => f
  | .conditional f => f

/-- The terminal outcome of one `update_recipe_source` call, as reflected
in its return value, statistics updates and error reports. -/
inductive SyncOutcome where
  | skippedPath
  | unsupportedSource
  | noSourceUrl
  | noUpstream
  | upToDate
  | dryRunWouldUpdate
  | hashFailed
  | missingSha
  | updated
  | gitNotImplemented
  deriving DecidableEq

/-- The literal `$\x7b\x7b version \x7d\x7d` placeholder. -/
def versionTemplateA : PyStr := pyStr "$\x7b\x7b version \x7d\x7d"

/-- The literal `\x7b\x7b version \x7d\x7d` placeholder. -/
def versionTemplateB : PyStr := pyStr "\x7b\x7b version \x7d\x7d"

/-- The template expansion of `update_recipe_source` line 708: substitute
the dollar-braced placeholder first, then the braced one. -/
def expandVersionTemplates (url v : PyStr) : PyStr :=
  replaceAll versionTemplateB v (replaceAll versionTemplateA v url)

/-- The version comparison of `update_recipe_source` (lines 684-696),
deciding whether to proceed with an update: when both versions parse,
proceed exactly when `semver.compare(current, upstream) < 0`; when either
fails to parse, fall back to the string comparison and proceed exactly
when `current < upstream`. -/
def versionProceeds (current upstream : PyStr) : Bool :=
  match parseSemver current, parseSemver upstream with
  | some a, some b => decide (semverKey a < semverKey b)
  | _, _ => decide (current < upstream)

/-- Model of `update_recipe_source` (`version_ctl.py`, lines 572-734)
after document loading: `src` is the source mapping, `upstream` the result
of `get_upstream_latest_version`, `net` the abstracted download used by
`calculate_sha256`, `content` the descriptor file's bytes.  Returns the
file's bytes after the call together with the outcome.  The conda-forge
availability lookup is omitted: it only feeds statistics and printing and
never gates the decision. -/
def update_recipe_source (src : SourceEntry) (current_version : PyStr)
    (upstream : Option PyStr) (net : PyStr → DownloadResult)
    (dry_run : Bool) (content : PyStr) : PyStr × SyncOutcome :=
  let s := unwrapSource src
  if s.hasPath then (content, .skippedPath)
  else if s.url.isNone && s.git.isNone then (content, .unsupportedSource)
  else
    let source_url : PyStr :=
      match s.url with
      | some u => if u.isEmpty then s.git.getD [] else u
      | none => s.git.getD []
    if source_url.isEmpty then (content, .noSourceUrl)
    else
      match upstream with
      | none => (content, .noUpstream)
      | some uv =>
        if current_version = uv then (content, .upToDate)
        else if !versionProceeds current_version uv then (content, .upToDate)
        else if dry_run then (content, .dryRunWouldUpdate)
        else if s.url.isSome then
          let new_url := expandVersionTemplates source_url uv
          match calculate_sha256 (net new_url) with
          | none => (content, .hashFailed)
          | some new_hash =>
            match s.sha256 with
            | none => (content, .missingSha)
            | some old_sha =>
              (applyUrlUpdate content old_sha uv new_hash, .updated)
        else (content, .gitNotImplemented)

/-- The exit-status logic at the end of `main` (`version_ctl.py`, lines
1063-1088): the JSON branch prints the summary and returns, so the process
exits with status 0; only the non-JSON path reaches the error check that
exits with status 1. -/
def main_exit_code (json_output : Bool) (packages_with_errors : Nat) : Nat :=
  if json_output then 0
  else if packages_with_errors > 0 then 1
  else 0

theorem replaceAllGo_congr (pat rep : PyStr) :
    ∀ (n m : Nat) (s : PyStr), s.length ≤ n → s.length ≤ m →
      replaceAllGo pat rep n s = replaceAllGo pat rep m s := by
  intro n
  induction n with
  | zero =>
    intro m s h1 _
    have hs : s = [] := List.eq_nil_of_length_eq_zero (Nat.le_zero.mp h1)
    subst hs
    cases m <;> rfl
  | succ n ih =>
    intro m s h1 h2
    cases s with
    | nil => cases m <;> rfl
    | cons c t =>
      cases m with
      | zero => simp at h2
      | succ m' =>
        simp only [replaceAllGo]
        by_cases hcond : (!pat.isEmpty && pat.isPrefixOf (c :: t)) = true
        · rw [if_pos hcond, if_pos hcond]
          have hp : 1 ≤ pat.length := by
            cases hpat : pat with
            | nil => rw [hpat] at hcond; simp at hcond
            | cons x xs => simp
          have hlen : ((c :: t).drop pat.length).length ≤ n := by
            simp only [List.length_drop, List.length_cons]
            simp only [List.length_cons] at h1
            omega
          have hlen' : ((c :: t).drop pat.length).length ≤ m' := by
            simp only [List.length_drop, List.length_cons]
            simp only [List.length_cons] at h2
            omega
          rw [ih _ _ hlen hlen']
        · rw [if_neg hcond, if_neg hcond]
          have hlen : t.length ≤ n := by
            simp only [List.length_cons] at h1; omega
          have hlen' : t.length ≤ m' := by
            simp only [List.length_cons] at h2; omega
          rw [ih _ _ hlen hlen']

theorem replaceAll_nil (pat rep : PyStr) : replaceAll pat rep [] = [] := rfl

theorem replaceAll_cons (pat rep : PyStr) (c : Char) (t : PyStr) :
    replaceAll pat rep (c :: t) =
      if !pat.isEmpty && pat.isPrefixOf (c :: t) then
        rep ++ replaceAll pat rep ((c :: t).drop pat.length)
      else
        c :: replaceAll pat rep t := by
  show replaceAllGo pat rep (c :: t).length (c :: t) = _
  simp only [List.length_cons]
  rw [replaceAllGo]
  by_cases hcond : (!pat.isEmpty && pat.isPrefixOf (c :: t)) = true
  · rw [if_pos hcond, if_pos hcond]
    have hp : 1 ≤ pat.length := by
      cases hpat : pat with
      | nil => rw [hpat] at hcond; simp at hcond
      | cons x xs => simp
    apply congrArg (rep ++ ·)
    show replaceAllGo pat rep t.length _ = replaceAll pat rep _
    apply replaceAllGo_congr
    · simp only [List.length_drop, List.length_cons]; omega
    · simp
  · rw [if_neg hcond, if_neg hcond]
    rfl

theorem not_infix_replaceAll (pat rep : PyStr) :
    ∀ s : PyStr, ¬ pat <:+: s → replaceAll pat rep s = s := by
  intro s
  induction s with
  | nil => intro _; rfl
  | cons c t ih =>
    intro h
    rw [replaceAll_cons]
    have hpre : pat.isPrefixOf (c :: t) = false := by
      cases hp : pat.isPrefixOf (c :: t)
      · rfl
      · exact absurd (List.isPrefixOf_iff_prefix.mp hp).isInfix h
    rw [if_neg (by simp [hpre])]
    rw [ih fun hinf => h (List.infix_cons hinf)]

theorem prefix_through_append_nl {pat x y : PyStr} (hnl : '\n' ∉ pat)
    (h : pat <+: (x ++ '\n' :: y)) : pat <+: x ∧ pat.length ≤ x.length := by
  rcases le_or_lt pat.length x.length with hle | hlt
  · refine ⟨?_, hle⟩
    have htake := List.prefix_iff_eq_take.mp h
    rw [List.take_append_eq_append_take, Nat.sub_eq_zero_of_le hle,
      List.take_zero, List.append_nil] at htake
    exact List.prefix_iff_eq_take.mpr htake
  · exfalso
    apply hnl
    have htake := List.prefix_iff_eq_take.mp h
    rw [List.take_append_eq_append_take] at htake
    have h1 : pat.length - x.length = (pat.length - x.length - 1) + 1 := by
      omega
    rw [h1, List.take_succ_cons] at htake
    rw [htake]
    exact List.mem_append.mpr (Or.inr (List.mem_cons_self _ _))

theorem replaceAll_cons_nl (pat rep : PyStr) (hne : pat ≠ [])
    (hnl : '\n' ∉ pat) (y : PyStr) :
    replaceAll pat rep ('\n' :: y) = '\n' :: replaceAll pat rep y := by
  rw [replaceAll_cons]
  have hpre : pat.isPrefixOf ('\n' :: y) = false := by
    cases hp : pat.isPrefixOf ('\n' :: y)
    · rfl
    · exfalso
      apply hnl
      obtain ⟨a, pat', rfl⟩ : ∃ a pat', pat = a :: pat' := by
        cases pat with
        | nil => exact absurd rfl hne
        | cons a pat' => exact ⟨a, pat', rfl⟩
      obtain ⟨t, ht⟩ := List.isPrefixOf_iff_prefix.mp hp
      have ha : a = '\n' := by
        have := congrArg (fun l => l.head?) ht
        simpa using this
      simp [ha]
  rw [if_neg (by simp [hpre])]

theorem replaceAll_append_nl (pat rep : PyStr) (hne : pat ≠ [])
    (hnl : '\n' ∉ pat) : ∀ x y : PyStr,
      replaceAll pat rep (x ++ '\n' :: y) =
        replaceAll pat rep x ++ '\n' :: replaceAll pat rep y := by
  suffices H : ∀ (n : Nat) (x y : PyStr), x.length ≤ n →
      replaceAll pat rep (x ++ '\n' :: y) =
        replaceAll pat rep x ++ '\n' :: replaceAll pat rep y by
    intro x y
    exact H x.length x y (Nat.le_refl _)
  intro n
  induction n with
  | zero =>
    intro x y h1
    have hx : x = [] := List.eq_nil_of_length_eq_zero (Nat.le_zero.mp h1)
    subst hx
    simpa using replaceAll_cons_nl pat rep hne hnl y
  | succ n ih =>
    intro x y h1
    cases x with
    | nil => simpa using replaceAll_cons_nl pat rep hne hnl y
    | cons c t =>
      rw [List.cons_append, replaceAll_cons, replaceAll_cons (t := t)]
      have hp : 1 ≤ pat.length := by
        cases hpat : pat with
        | nil => exact absurd hpat hne
        | cons a pat' => simp
      by_cases hpre : pat <+: (c :: t ++ '\n' :: y)
      · have hsplit := prefix_through_append_nl (x := c :: t) hnl hpre
        have hpre1 : pat.isPrefixOf (c :: (t ++ '\n' :: y)) = true := by
          rw [List.isPrefixOf_iff_prefix, ← List.cons_append]
          exact hpre
        have hpre2 : pat.isPrefixOf (c :: t) = true :=
          List.isPrefixOf_iff_prefix.mpr hsplit.1
        have hpe : (!pat.isEmpty) = true := by
          cases pat with
          | nil => exact absurd rfl hne
          | cons a pat' => rfl
        rw [if_pos (by rw [hpre1, hpe]; rfl), if_pos (by rw [hpre2, hpe]; rfl)]
        have hdrop : (c :: (t ++ '\n' :: y)).drop pat.length =
            (c :: t).drop pat.length ++ '\n' :: y := by
          rw [← List.cons_append, List.drop_append_eq_append_drop,
            Nat.sub_eq_zero_of_le hsplit.2, List.drop_zero]
        rw [hdrop]
        have hlen : ((c :: t).drop pat.length).length ≤ n := by
          simp only [List.length_drop, List.length_cons]
          simp only [List.length_cons] at h1
          omega
        rw [ih _ y hlen, List.append_assoc]
      · have hpre1 : pat.isPrefixOf (c :: (t ++ '\n' :: y)) = false := by
          cases hpc : pat.isPrefixOf (c :: (t ++ '\n' :: y))
          · rfl
          · exfalso
            apply hpre
            rw [List.cons_append]
            exact List.isPrefixOf_iff_prefix.mp hpc
        have hpre2 : pat.isPrefixOf (c :: t) = false := by
          cases hpc : pat.isPrefixOf (c :: t)
          · rfl
          · exfalso
            apply hpre
            exact (List.isPrefixOf_iff_prefix.mp hpc).trans
              ((c :: t).prefix_append ('\n' :: y))
        rw [if_neg (by simp [hpre1]), if_neg (by simp [hpre2])]
        have hlen : t.length ≤ n := by
          simp only [List.length_cons] at h1; omega
        rw [ih _ y hlen]
        rfl

theorem replaceAll_joinNl (pat rep : PyStr) (hne : pat ≠ [])
    (hnl : '\n' ∉ pat) : ∀ L : List PyStr,
      replaceAll pat rep (joinNl L) = joinNl (L.map (replaceAll pat rep)) := by
  intro L
  induction L with
  | nil => rfl
  | cons l ls ih =>
    cases ls with
    | nil => rfl
    | cons l' ls' =>
      show replaceAll pat rep (l ++ '\n' :: joinNl (l' :: ls')) = _
      rw [replaceAll_append_nl pat rep hne hnl, ih]
      rfl

theorem infix_joinNl {l : PyStr} : ∀ {L : List PyStr}, l ∈ L → l <:+: joinNl L := by
  intro L
  induction L with
  | nil => intro h; cases h
  | cons a ls ih =>
    intro h
    cases ls with
    | nil =>
      have hl : l = a := by simpa using h
      subst hl
      exact List.infix_refl _
    | cons b ls' =>
      rcases List.mem_cons.mp h with rfl | hmem
      · show l <:+: l ++ '\n' :: joinNl (b :: ls')
        exact (List.prefix_append l _).isInfix
      · have h2 := ih hmem
        show l <:+: a ++ '\n' :: joinNl (b :: ls')
        refine h2.trans (List.IsSuffix.isInfix ⟨a ++ ['\n'], ?_⟩)
        simp

theorem head?_dropWhile_not (p : Char → Bool) (l : PyStr) :
    ∀ c, (l.dropWhile p).head? = some c → p c = false := by
  induction l with
  | nil => intro c h; simp at h
  | cons a t ih =>
    intro c h
    rw [List.dropWhile_cons] at h
    by_cases hpa : p a = true
    · rw [if_pos hpa] at h
      exact ih c h
    · rw [if_neg hpa] at h
      have : a = c := by simpa using h
      subst this
      simpa using hpa

theorem getLast?_of_suffix {l₁ l₂ : PyStr} (h : l₁ <:+ l₂) (hne : l₁ ≠ []) :
    l₁.getLast? = l₂.getLast? := by
  obtain ⟨t, rfl⟩ := h
  rw [List.getLast?_append]
  cases hl : l₁.getLast? with
  | none => exact absurd (List.getLast?_eq_none_iff.mp hl) hne
  | some x => rfl

theorem pyStrip_head_not_space (s : PyStr) :
    ∀ c, (pyStrip s).head? = some c → isSpaceChar c = false := by
  intro c h
  unfold pyStrip at h
  rw [List.head?_reverse] at h
  by_cases hBne : (s.dropWhile isSpaceChar).reverse.dropWhile isSpaceChar = []
  · rw [hBne] at h; simp at h
  · rw [getLast?_of_suffix (List.dropWhile_suffix _) hBne,
      List.getLast?_reverse] at h
    exact head?_dropWhile_not isSpaceChar s c h

theorem pyStrip_getLast_not_space (s : PyStr) :
    ∀ c, (pyStrip s).getLast? = some c → isSpaceChar c = false := by
  intro c h
  unfold pyStrip at h
  rw [List.getLast?_reverse] at h
  exact head?_dropWhile_not isSpaceChar _ c h

theorem pyStrip_infix_self (s : PyStr) : pyStrip s <:+: s := by
  obtain ⟨t, ht⟩ := List.dropWhile_suffix (l := s) (p := isSpaceChar)
  obtain ⟨u, hu⟩ := List.dropWhile_suffix
    (l := (s.dropWhile isSpaceChar).reverse) (p := isSpaceChar)
  refine ⟨t, u.reverse, ?_⟩
  have hrev := congrArg List.reverse hu
  rw [List.reverse_append, List.reverse_reverse] at hrev
  show t ++ ((s.dropWhile isSpaceChar).reverse.dropWhile isSpaceChar).reverse
      ++ u.reverse = s
  rw [List.append_assoc, hrev]
  exact ht

theorem infix_dropWhile_of_head {c : Char} {t s : PyStr}
    (h : (c :: t) <:+: s) (hc : isSpaceChar c = false) :
    (c :: t) <:+: s.dropWhile isSpaceChar := by
  obtain ⟨a, b, hab⟩ := h
  rw [← hab, List.append_assoc, List.dropWhile_append]
  by_cases he : (a.dropWhile isSpaceChar).isEmpty = true
  · rw [if_pos he]
    rw [List.cons_append, List.dropWhile_cons, if_neg (by simp [hc])]
    exact ⟨[], b, by simp⟩
  · rw [if_neg he]
    exact ⟨a.dropWhile isSpaceChar, b, by rw [List.append_assoc]⟩

theorem infix_pyStrip {t s : PyStr} (h : t <:+: s)
    (hhead : ∀ c, t.head? = some c → isSpaceChar c = false)
    (hlast : ∀ c, t.getLast? = some c → isSpaceChar c = false) :
    t <:+: pyStrip s := by
  cases t with
  | nil => exact List.nil_infix
  | cons c t' =>
    have h1 : (c :: t') <:+: s.dropWhile isSpaceChar :=
      infix_dropWhile_of_head h (hhead c rfl)
    unfold pyStrip
    rw [← List.reverse_infix, List.reverse_reverse]
    cases hrev : (c :: t').reverse with
    | nil => simp at hrev
    | cons d r =>
      have hd : isSpaceChar d = false := by
        apply hlast
        rw [← List.head?_reverse, hrev]
        rfl
      have h2 : (c :: t').reverse <:+: (s.dropWhile isSpaceChar).reverse :=
        List.reverse_infix.mpr h1
      rw [hrev] at h2
      exact infix_dropWhile_of_head h2 hd

theorem mem_rewriteFirstVersionLine {l : PyStr} (v : PyStr) :
    ∀ {L : List PyStr}, l ∈ L → isVersionLine l = false →
      l ∈ rewriteFirstVersionLine v L := by
  intro L
  induction L with
  | nil => intro h _; cases h
  | cons a ls ih =>
    intro h hnv
    rcases List.mem_cons.mp h with rfl | hmem
    · show l ∈ rewriteFirstVersionLine v (l :: ls)
      rw [rewriteFirstVersionLine, if_neg (by simp [hnv])]
      exact List.mem_cons_self _ _
    · show l ∈ rewriteFirstVersionLine v (a :: ls)
      rw [rewriteFirstVersionLine]
      by_cases hva : isVersionLine a = true
      · rw [if_pos hva]
        exact List.mem_cons_of_mem _ hmem
      · rw [if_neg hva]
        exact List.mem_cons_of_mem _ (ih hmem hnv)

section SortLemmas

variable {β : Type} {κ : Type} [LinearOrder κ]

theorem insertDescBy_head (key : β → κ) (a : β) :
    ∀ l : List β, (insertDescBy key a l).head? =
      some (match l.head? with
            | none => a
            | some b => if key b ≤ key a then a else b) := by
  intro l
  cases l with
  | nil => rfl
  | cons b t =>
    show (if key b ≤ key a then a :: b :: t
          else b :: insertDescBy key a t).head? = _
    by_cases h : key b ≤ key a
    · rw [if_pos h]
      simp [h]
    · rw [if_neg h]
      simp [h]

theorem sortDescBy_head (key : β → κ) :
    ∀ l : List β, (sortDescBy key l).head? = firstMaxBy key l := by
  intro l
  induction l with
  | nil => rfl
  | cons a t ih =>
    show (insertDescBy key a (sortDescBy key t)).head? = _
    rw [insertDescBy_head key a, ih]
    cases hfm : firstMaxBy key t with
    | none => simp [firstMaxBy, hfm]
    | some b =>
      simp only [firstMaxBy, hfm]
      by_cases h : key b ≤ key a
      · rw [if_pos h, if_pos h]
      · rw [if_neg h, if_neg h]

theorem firstMaxBy_eq_none (key : β → κ) :
    ∀ l : List β, firstMaxBy key l = none ↔ l = [] := by
  intro l
  cases l with
  | nil => simp [firstMaxBy]
  | cons a t =>
    cases hfm : firstMaxBy key t with
    | none => simp [firstMaxBy, hfm]
    | some b =>
      by_cases h : key b ≤ key a
      · simp [firstMaxBy, hfm, h]
      · simp [firstMaxBy, hfm, h]

theorem firstMaxBy_spec (key : β → κ) :
    ∀ (l : List β) (c : β), firstMaxBy key l = some c →
      ∃ (i : Nat) (hi : i < l.length), l.get ⟨i, hi⟩ = c
        ∧ (∀ (j : Nat) (hj : j < l.length), key (l.get ⟨j, hj⟩) ≤ key c)
        ∧ (∀ (j : Nat) (hj : j < l.length), j < i →
            key (l.get ⟨j, hj⟩) < key c) := by
  intro l
  induction l with
  | nil => intro c h; simp [firstMaxBy] at h
  | cons a t ih =>
    intro c h
    cases hfm : firstMaxBy key t with
    | none =>
      have ht : t = [] := (firstMaxBy_eq_none key t).mp hfm
      subst ht
      rw [show firstMaxBy key [a] = some a by simp [firstMaxBy, hfm]] at h
      have hac : a = c := by simpa using h
      subst hac
      refine ⟨0, by simp, rfl, ?_, ?_⟩
      · intro j hj
        have hj0 : j = 0 := by simp at hj; omega
        subst hj0
        exact le_refl _
      · intro j hj hlt
        omega
    | some b =>
      rw [show firstMaxBy key (a :: t) =
            (if key b ≤ key a then some a else some b) by
          simp [firstMaxBy, hfm]] at h
      obtain ⟨i, hi, hget, hmax, hfirst⟩ := ih b hfm
      by_cases hba : key b ≤ key a
      · rw [if_pos hba] at h
        have hac : a = c := by simpa using h
        subst hac
        refine ⟨0, by simp, rfl, ?_, ?_⟩
        · intro j hj
          cases j with
          | zero => exact le_refl _
          | succ j' =>
            have hj' : j' < t.length := by simp at hj; omega
            have h1 : key ((a :: t).get ⟨j' + 1, hj⟩) = key (t.get ⟨j', hj'⟩) := rfl
            rw [h1, hget] at *
            exact le_trans (hget ▸ hmax j' hj') hba
        · intro j hj hlt
          omega
      · rw [if_neg hba] at h
        have hbc : b = c := by simpa using h
        subst hbc
        refine ⟨i + 1, by simp; omega, hget, ?_, ?_⟩
        · intro j hj
          cases j with
          | zero => exact le_of_lt (lt_of_not_le hba)
          | succ j' =>
            have hj' : j' < t.length := by simp at hj; omega
            exact hmax j' hj'
        · intro j hj hlt
          cases j with
          | zero => exact lt_of_not_le hba
          | succ j' =>
            have hj' : j' < t.length := by simp at hj; omega
            exact hfirst j' hj' (by omega)

end SortLemmas

theorem parsedKey_of_parse {s : PyStr} {v : SemVer}
    (h : parseSemver s = some v) :
    parsedKey s = toLex (true, semverKey v) := by
  unfold parsedKey
  rw [h]

theorem select_all_parse_eq (versions : List VersionInfo) (hne : versions ≠ [])
    (hall : ∀ v ∈ versions, (parseSemver v.version).isSome = true) :
    sort_and_get_latest versions =
      firstMaxBy (fun v => parsedKey v.version) versions := by
  cases versions with
  | nil => exact absurd rfl hne
  | cons a t =>
    show (if (a :: t).all (fun v => (parseSemver v.version).isSome) then
            (sortDescBy (fun v => parsedKey v.version) (a :: t)).head?
          else
            (sortDescBy (fun v => v.version) (a :: t)).head?) = _
    rw [if_pos (List.all_eq_true.mpr hall), sortDescBy_head]

theorem select_some_fail_eq (versions : List VersionInfo) (hne : versions ≠ [])
    (hbad : ∃ v ∈ versions, parseSemver v.version = none) :
    sort_and_get_latest versions =
      firstMaxBy (fun v => v.version) versions := by
  cases versions with
  | nil => exact absurd rfl hne
  | cons a t =>
    show (if (a :: t).all (fun v => (parseSemver v.version).isSome) then
            (sortDescBy (fun v => parsedKey v.version) (a :: t)).head?
          else
            (sortDescBy (fun v => v.version) (a :: t)).head?) = _
    rw [if_neg, sortDescBy_head]
    intro hall
    obtain ⟨v, hv, hvnone⟩ := hbad
    have := List.all_eq_true.mp hall v hv
    rw [hvnone] at this
    simp at this

/-- Claim C3: for every non-empty candidate list in which every surviving
version string parses as a semantic version, `_sort_and_get_latest`
returns the candidate whose version is maximal under semantic-version
ordering, and among equal maximal versions the one that appeared earliest
in the original enumeration (the sort is stable and descending). -/
theorem select_semantic_max (versions : List VersionInfo)
    (hne : versions ≠ [])
    (hall : ∀ v ∈ versions, (parseSemver v.version).isSome = true) :
    ∃ (i : Nat) (hi : i < versions.length),
      sort_and_get_latest versions = some (versions.get ⟨i, hi⟩)
      ∧ (∀ (j : Nat) (hj : j < versions.length) (a b : SemVer),
          parseSemver (versions.get ⟨j, hj⟩).version = some a →
          parseSemver (versions.get ⟨i, hi⟩).version = some b →
          semverKey a ≤ semverKey b)
      ∧ (∀ (j : Nat) (hj : j < versions.length), j < i →
          ∀ (a b : SemVer),
          parseSemver (versions.get ⟨j, hj⟩).version = some a →
          parseSemver (versions.get ⟨i, hi⟩).version = some b →
          semverKey a < semverKey b) := by
  have hsel := select_all_parse_eq versions hne hall
  cases hfm : firstMaxBy (fun v => parsedKey v.version) versions with
  | none =>
    exact absurd ((firstMaxBy_eq_none _ _).mp hfm) hne
  | some c =>
    obtain ⟨i, hi, hget, hmax, hfirst⟩ := firstMaxBy_spec _ _ _ hfm
    refine ⟨i, hi, by rw [hsel, hfm, hget], ?_, ?_⟩
    · intro j hj a b hpa hpb
      rw [hget] at hpb
      have hle := hmax j hj
      rw [parsedKey_of_parse hpa, parsedKey_of_parse hpb] at hle
      rcases (Prod.Lex.le_iff _ _).mp hle with hlt | ⟨_, hle2⟩
      · exact absurd hlt (lt_irrefl _)
      · exact hle2
    · intro j hj hji a b hpa hpb
      rw [hget] at hpb
      have hlt := hfirst j hj hji
      rw [parsedKey_of_parse hpa, parsedKey_of_parse hpb] at hlt
      rcases (Prod.Lex.lt_iff _ _).mp hlt with hlt1 | ⟨_, hlt2⟩
      · exact absurd hlt1 (lt_irrefl _)
      · exact hlt2

/-- Claim C2: for every non-empty candidate list in which at least one
surviving version string fails semantic-version parsing,
`_sort_and_get_latest` abandons semantic ordering for the whole list and
selects by descending lexicographic string comparison: the result is the
earliest candidate whose raw version string is maximal in the string
order, every candidate comparing as a string — never a mixed
comparator. -/
theorem select_lexicographic_fallback (versions : List VersionInfo)
    (hne : versions ≠ [])
    (hbad : ∃ v ∈ versions, parseSemver v.version = none) :
    ∃ (i : Nat) (hi : i < versions.length),
      sort_and_get_latest versions = some (versions.get ⟨i, hi⟩)
      ∧ (∀ (j : Nat) (hj : j < versions.length),
          (versions.get ⟨j, hj⟩).version ≤ (versions.get ⟨i, hi⟩).version)
      ∧ (∀ (j : Nat) (hj : j < versions.length), j < i →
          (versions.get ⟨j, hj⟩).version < (versions.get ⟨i, hi⟩).version) := by
  have hsel := select_some_fail_eq versions hne hbad
  cases hfm : firstMaxBy (fun v => v.version) versions with
  | none =>
    exact absurd ((firstMaxBy_eq_none _ _).mp hfm) hne
  | some c =>
    obtain ⟨i, hi, hget, hmax, hfirst⟩ := firstMaxBy_spec _ _ _ hfm
    refine ⟨i, hi, by rw [hsel, hfm, hget], ?_, ?_⟩
    · intro j hj
      rw [hget]
      exact hmax j hj
    · intro j hj hji
      rw [hget]
      exact hfirst j hj hji

theorem update_recipe_source_updated (s : SourceFields)
    (current uv content : PyStr) (net : PyStr → DownloadResult)
    (u old_sha digest : PyStr)
    (hpath : s.hasPath = false) (hurl : s.url = some u)
    (hune : u.isEmpty = false) (hneq : current ≠ uv)
    (hproc : versionProceeds current uv = true)
    (hhash : calculate_sha256 (net (expandVersionTemplates u uv)) = some digest)
    (hsha : s.sha256 = some old_sha) :
    update_recipe_source (SourceEntry.plain s) current (some uv) net false content
      = (applyUrlUpdate content old_sha uv digest, SyncOutcome.updated) := by
  unfold update_recipe_source unwrapSource
  simp [hpath, hurl, hsha, hune, hneq, hproc, hhash]

/-- Claim C1: for every synchronization of a `url` source where the new
content hash cannot be computed (`calculate_sha256` returns `None`, which
covers a non-200 response, timeout, connection error, hashing failure),
`update_recipe_source` performs no mutation: the descriptor bytes after
the call equal the bytes before, the outcome is the hash-failure error,
and no version, URL or hash field is written. -/
theorem hash_gate_no_mutation (s : SourceFields)
    (current uv content : PyStr) (net : PyStr → DownloadResult) (u : PyStr)
    (hpath : s.hasPath = false) (hurl : s.url = some u)
    (hune : u.isEmpty = false) (hneq : current ≠ uv)
    (hproc : versionProceeds current uv = true)
    (hhash : calculate_sha256 (net (expandVersionTemplates u uv)) = none) :
    update_recipe_source (SourceEntry.plain s) current (some uv) net false content
      = (content, SyncOutcome.hashFailed) := by
  unfold update_recipe_source unwrapSource
  simp [hpath, hurl, hune, hneq, hproc, hhash]

/-- Claim C5: when an update is applied to a descriptor (hash obtained,
fields rewritten), every line of the original file that is not the version
line and does not contain the old sha256 — in particular a source URL
field holding a version template — survives verbatim (up to the final
whole-document whitespace strip) in the synchronized file: the URL field
is never rewritten to the literal resolved URL. -/
theorem template_url_preserved (s : SourceFields)
    (current uv content : PyStr) (net : PyStr → DownloadResult)
    (u old_sha digest urlLine : PyStr)
    (hpath : s.hasPath = false) (hurl : s.url = some u)
    (hune : u.isEmpty = false) (hneq : current ≠ uv)
    (hproc : versionProceeds current uv = true)
    (hhash : calculate_sha256 (net (expandVersionTemplates u uv)) = some digest)
    (hsha : s.sha256 = some old_sha)
    (hshane : old_sha ≠ []) (hshanl : ('\n') ∉ old_sha)
    (hline : urlLine ∈ pySplitlines content)
    (hnver : isVersionLine urlLine = false)
    (hnsha : ¬ old_sha <:+: urlLine) :
    update_recipe_source (SourceEntry.plain s) current (some uv) net false content
      = (applyUrlUpdate content old_sha uv digest, SyncOutcome.updated)
    ∧ pyStrip urlLine <:+: applyUrlUpdate content old_sha uv digest := by
  refine ⟨update_recipe_source_updated s current uv content net u old_sha digest
    hpath hurl hune hneq hproc hhash hsha, ?_⟩
  have h1 : urlLine ∈ rewriteFirstVersionLine uv (pySplitlines content) :=
    mem_rewriteFirstVersionLine uv hline hnver
  have h2 : replaceAll old_sha digest urlLine = urlLine :=
    not_infix_replaceAll _ _ _ hnsha
  have h3 : urlLine ∈ (rewriteFirstVersionLine uv (pySplitlines content)).map
      (replaceAll old_sha digest) := by
    rw [← h2]
    exact List.mem_map_of_mem _ h1
  have h5 : urlLine <:+: replaceAll old_sha digest
      (replace_version_string content uv) := by
    unfold replace_version_string
    rw [replaceAll_joinNl old_sha digest hshane hshanl]
    exact infix_joinNl h3
  exact infix_pyStrip ((pyStrip_infix_self urlLine).trans h5)
    (pyStrip_head_not_space urlLine) (pyStrip_getLast_not_space urlLine)

/-- Claim C10: on a successful update of a `url` source, the bytes written
equal the original content split into lines with the first version line
rewritten (indentation kept, new version double-quoted), every occurrence
of the old sha256 in every line replaced by the new hash, the lines
rejoined with line feeds and the whole document stripped of leading and
trailing whitespace — so a trailing newline is not preserved, and every
other line is unchanged. -/
theorem update_write_frame (content old_sha v hsh : PyStr)
    (h1 : old_sha ≠ []) (h2 : ('\n') ∉ old_sha) :
    applyUrlUpdate content old_sha v hsh
      = pyStrip (joinNl ((rewriteFirstVersionLine v (pySplitlines content)).map
          (replaceAll old_sha hsh))) := by
  unfold applyUrlUpdate replace_version_string
  rw [replaceAll_joinNl old_sha hsh h1 h2]

/-- The candidate tag list of the claim C4 scenario. -/
def scenarioTags : List PyStr := [pyStr "v1.2.0", pyStr "v1.10.0", pyStr "v1.9.0"]

/-- Claim C4 counterexample: on the candidates `v1.2.0`, `v1.10.0`,
`v1.9.0` with the single version pattern `^v(\d+\.\d+\.\d+)`, the pipeline
selects nothing at all — tag normalization strips the leading `v` before
pattern filtering, so the pattern matches no candidate — rather than the
claimed `1.10.0`. -/
theorem tag_pipeline_v_pattern_counterexample :
    github_get_latest_tag (pyStr "o") (pyStr "r") scenarioTags (pyStr "foo")
      [.vCorePat] = none := by decide

/-- Claim C4 amended: on the candidates `v1.2.0`, `v1.10.0`, `v1.9.0` the
pipeline with the explicit pattern `^v(\d+\.\d+\.\d+)` yields no
candidate, because normalization strips the leading `v` before the
patterns run; with the default pattern `^(\d+\.\d+\.\d+)` it selects
`1.10.0`, ordered semantically and not lexicographically. -/
theorem tag_pipeline_selection_amended :
    github_get_latest_tag (pyStr "o") (pyStr "r") scenarioTags (pyStr "foo")
        [.vCorePat] = none
    ∧ (github_get_latest_tag (pyStr "o") (pyStr "r") scenarioTags (pyStr "foo")
        [.corePat]).map (fun v => v.version) = some (pyStr "1.10.0") := by
  constructor
  · decide
  · decide

/-- Claim C6 counterexample: the GitHub plugin's tag normalization (one of
the two cited implementations) never strips the package name: for package
`foo`, the tag `foo-2.0.0` normalizes to itself, not to the claimed
`2.0.0`. -/
theorem clean_tag_package_counterexample :
    github_clean_tag_name (pyStr "foo-2.0.0") (pyStr "foo") = pyStr "foo-2.0.0"
    ∧ github_clean_tag_name (pyStr "foo-2.0.0") (pyStr "foo") ≠ pyStr "2.0.0" := by
  constructor
  · decide
  · decide

/-- Claim C6 amended: only the Git plugin's normalization strips the
package name — a leading occurrence of the package name plus the single
following character, then one leading lowercase `v` — so `foo-2.0.0` with
package `foo` yields `2.0.0` there; the GitHub plugin's normalization
ignores the package name (stripping only one leading prefix of the
v/version/release family) and leaves `foo-2.0.0` unchanged. -/
theorem clean_tag_normalization_amended :
    (∀ (p rest : PyStr) (c : Char),
      git_clean_tag_name (p ++ c :: rest) p =
        (if (pyStr "v").isPrefixOf rest then rest.drop 1 else rest))
    ∧ github_clean_tag_name (pyStr "foo-2.0.0") (pyStr "foo") = pyStr "foo-2.0.0"
    ∧ git_clean_tag_name (pyStr "foo-2.0.0") (pyStr "foo") = pyStr "2.0.0" := by
  refine ⟨?_, by decide, by decide⟩
  intro p rest c
  unfold git_clean_tag_name
  have hpre : p.isPrefixOf (p ++ c :: rest) = true :=
    List.isPrefixOf_iff_prefix.mpr (List.prefix_append _ _)
  rw [if_pos hpre]
  have hdrop : (p ++ c :: rest).drop (p.length + 1) = rest := by
    rw [show p ++ c :: rest = (p ++ [c]) ++ rest by simp,
      show p.length + 1 = (p ++ [c]).length by simp,
      List.drop_left]
  rw [hdrop]

/-- Claim C7 counterexample: tag normalization is not idempotent: for the
tag `vv1.2.3` the GitHub normalization strips one `v` per application, so
normalizing the normalized identifier changes it again. -/
theorem clean_tag_idempotent_counterexample :
    github_clean_tag_name
        (github_clean_tag_name (pyStr "vv1.2.3") (pyStr "pkg")) (pyStr "pkg")
      ≠ github_clean_tag_name (pyStr "vv1.2.3") (pyStr "pkg") := by decide

theorem stripFirstMatching_id (x : PyStr) :
    ∀ ps : List PyStr,
      (ps.all fun q => !(toLowerStr q).isPrefixOf (toLowerStr x)) = true →
      stripFirstMatching x ps = x := by
  intro ps
  induction ps with
  | nil => intro _; rfl
  | cons q qs ih =>
    intro h
    rw [List.all_cons] at h
    have h1 : (toLowerStr q).isPrefixOf (toLowerStr x) = false := by
      have := (Bool.and_eq_true _ _).mp h
      simpa using this.1
    show stripFirstMatching x (q :: qs) = x
    rw [stripFirstMatching, if_neg (by simp [h1])]
    exact ih ((Bool.and_eq_true _ _).mp h).2

/-- Claim C7 amended: tag normalization is idempotent exactly on results
that no longer begin with a strippable prefix: when the GitHub-normalized
identifier case-insensitively starts with none of the
v/version/release-family prefixes, re-normalizing it returns it
unchanged; likewise for the Git normalization when its result starts with
neither the package name nor a lowercase `v`. -/
theorem clean_tag_idempotent_amended (t p : PyStr)
    (h1 : (githubPrefixes.all fun q =>
        !(toLowerStr q).isPrefixOf
          (toLowerStr (github_clean_tag_name t p))) = true)
    (h2 : p.isPrefixOf (git_clean_tag_name t p) = false)
    (h3 : (pyStr "v").isPrefixOf (git_clean_tag_name t p) = false) :
    github_clean_tag_name (github_clean_tag_name t p) p
        = github_clean_tag_name t p
    ∧ git_clean_tag_name (git_clean_tag_name t p) p = git_clean_tag_name t p := by
  constructor
  · exact stripFirstMatching_id _ _ h1
  · set x := git_clean_tag_name t p with hx
    show git_clean_tag_name x p = x
    simp [git_clean_tag_name, h2, h3]

/-- Claim C8 counterexample: the two `can_handle` predicates are not
mutually exclusive: the URL `git+https://github.com/owner/repo` is claimed
both by the GitHub plugin (it is one of its supported schemes) and by the
generic Git plugin (its Git-transport branch does not exclude the hosting
services). -/
theorem resolver_overlap_counterexample :
    github_can_handle (pyStr "git+https://github.com/owner/repo") = true
    ∧ git_can_handle (pyStr "git+https://github.com/owner/repo") = true := by
  constructor
  · decide
  · decide

/-- Claim C8 amended: exclusivity fails for URLs carrying a Git-transport
scheme (both plugins claim `git+https://github.com/...`); it does hold for
plain `https://github.com/` URLs containing no Git-transport marker: the
generic Git plugin rejects them — its `.git`-suffix branch excludes the
host `github.com` — while the GitHub plugin claims them. -/
theorem resolver_exclusive_plain_https (rest : PyStr)
    (h : (gitSupportedSchemes.any fun scheme =>
        isSubOf scheme (pyStr "https://github.com/" ++ rest)) = false) :
    github_can_handle (pyStr "https://github.com/" ++ rest) = true
    ∧ git_can_handle (pyStr "https://github.com/" ++ rest) = false := by
  constructor
  · have hpre : (pyStr "https://github.com") <+:
        (pyStr "https://github.com/" ++ rest) := ⟨'/' :: rest, rfl⟩
    have hsub : isSubOf (pyStr "https://github.com")
        (pyStr "https://github.com/" ++ rest) = true :=
      decide_eq_true hpre.isInfix
    simp [github_can_handle, githubSupportedSchemes]
    left
    exact of_decide_eq_true hsub
  · unfold git_can_handle
    rw [if_neg (by simp [h])]
    have hnet : urlNetloc (pyStr "https://github.com/" ++ rest)
        = pyStr "github.com" := rfl
    by_cases hsuf :
        (pyStr ".git").isSuffixOf (pyStr "https://github.com/" ++ rest) = true
    · rw [if_pos hsuf, hnet]
      decide
    · rw [if_neg (by simp [hsuf])]

/-- Claim C9 counterexample: in the machine-readable JSON output mode,
`main` returns right after printing the summary, before the error check,
so a batch with one descriptor in an error outcome still exits with
status 0. -/
theorem json_exit_zero_counterexample : main_exit_code true 1 = 0 := by decide

/-- Claim C9 amended: the exit status is non-zero whenever a descriptor
ended in an error outcome only in the human-readable output mode; in the
JSON output mode `main` returns before the exit-status check and the
process exits with status 0 even when errors occurred. -/
theorem exit_status_amended (e : Nat) (h : 0 < e) :
    main_exit_code false e = 1 ∧ main_exit_code true e = 0 := by
  constructor
  · simp [main_exit_code, h]
  · rfl

/-- Concrete candidate list where every version parses. -/
def semverCandidates : List VersionInfo :=
  [{ version := pyStr "1.2.0" }, { version := pyStr "1.10.0" },
   { version := pyStr "1.9.0" }]

/-- Concrete candidate list where one version fails semantic parsing. -/
def mixedCandidates : List VersionInfo :=
  [{ version := pyStr "1.2.0" }, { version := pyStr "nightly" },
   { version := pyStr "1.10.0" }]

/-- Witness for claim C3 at the concrete all-semantic candidate list. -/
theorem select_semantic_max_witness :
    (semverCandidates ≠ []
      ∧ ∀ v ∈ semverCandidates, (parseSemver v.version).isSome = true)
    ∧ ∃ (i : Nat) (hi : i < semverCandidates.length),
        sort_and_get_latest semverCandidates
            = some (semverCandidates.get ⟨i, hi⟩)
        ∧ (∀ (j : Nat) (hj : j < semverCandidates.length) (a b : SemVer),
            parseSemver (semverCandidates.get ⟨j, hj⟩).version = some a →
            parseSemver (semverCandidates.get ⟨i, hi⟩).version = some b →
            semverKey a ≤ semverKey b)
        ∧ (∀ (j : Nat) (hj : j < semverCandidates.length), j < i →
            ∀ (a b : SemVer),
            parseSemver (semverCandidates.get ⟨j, hj⟩).version = some a →
            parseSemver (semverCandidates.get ⟨i, hi⟩).version = some b →
            semverKey a < semverKey b) :=
  ⟨⟨by decide, by decide⟩,
    select_semantic_max semverCandidates (by decide) (by decide)⟩

/-- Witness for claim C2 at the concrete mixed candidate list. -/
theorem select_lexicographic_fallback_witness :
    (mixedCandidates ≠ []
      ∧ ∃ v ∈ mixedCandidates, parseSemver v.version = none)
    ∧ ∃ (i : Nat) (hi : i < mixedCandidates.length),
        sort_and_get_latest mixedCandidates
            = some (mixedCandidates.get ⟨i, hi⟩)
        ∧ (∀ (j : Nat) (hj : j < mixedCandidates.length),
            (mixedCandidates.get ⟨j, hj⟩).version
              ≤ (mixedCandidates.get ⟨i, hi⟩).version)
        ∧ (∀ (j : Nat) (hj : j < mixedCandidates.length), j < i →
            (mixedCandidates.get ⟨j, hj⟩).version
              < (mixedCandidates.get ⟨i, hi⟩).version) :=
  ⟨⟨by decide, by decide⟩,
    select_lexicographic_fallback mixedCandidates (by decide) (by decide)⟩

/-- The template URL of the concrete synchronizer scenarios. -/
def sampleTemplateUrl : PyStr := pyStr "https://x/pkg-$\x7b\x7b version \x7d\x7d.tgz"

/-- A concrete recipe descriptor content. -/
def sampleContent : PyStr :=
  pyStr "context:\n  version: \"1.0.0\"\nsource:\n  url: https://x/pkg-$\x7b\x7b version \x7d\x7d.tgz\n  sha256: aabb\n"

/-- The source mapping of the concrete synchronizer scenarios. -/
def sampleFields : SourceFields :=
  { hasPath := false
    url := some sampleTemplateUrl
    git := none
    sha256 := some (pyStr "aabb") }

/-- The URL field line of `sampleContent`. -/
def sampleUrlLine : PyStr := pyStr "  url: https://x/pkg-$\x7b\x7b version \x7d\x7d.tgz"

/-- Witness for claim C1: a timed-out download leaves the concrete
descriptor byte-identical with the hash-failure outcome. -/
theorem hash_gate_no_mutation_witness :
    (sampleFields.hasPath = false
      ∧ sampleFields.url = some sampleTemplateUrl
      ∧ sampleTemplateUrl.isEmpty = false
      ∧ pyStr "1.0.0" ≠ pyStr "1.2.0"
      ∧ versionProceeds (pyStr "1.0.0") (pyStr "1.2.0") = true
      ∧ calculate_sha256 ((fun _ => DownloadResult.timeout)
          (expandVersionTemplates sampleTemplateUrl (pyStr "1.2.0"))) = none)
    ∧ update_recipe_source (SourceEntry.plain sampleFields) (pyStr "1.0.0")
        (some (pyStr "1.2.0")) (fun _ => DownloadResult.timeout) false
        sampleContent
      = (sampleContent, SyncOutcome.hashFailed) :=
  ⟨⟨rfl, rfl, by decide, by decide, by decide, rfl⟩,
    hash_gate_no_mutation sampleFields (pyStr "1.0.0") (pyStr "1.2.0")
      sampleContent (fun _ => DownloadResult.timeout) sampleTemplateUrl
      rfl rfl (by decide) (by decide) (by decide) rfl⟩

/-- Witness for claim C5: updating the concrete templated descriptor keeps
the template URL line in the synchronized file. -/
theorem template_url_preserved_witness :
    (sampleFields.hasPath = false
      ∧ sampleFields.url = some sampleTemplateUrl
      ∧ sampleTemplateUrl.isEmpty = false
      ∧ pyStr "1.0.0" ≠ pyStr "1.2.0"
      ∧ versionProceeds (pyStr "1.0.0") (pyStr "1.2.0") = true
      ∧ calculate_sha256 ((fun _ => DownloadResult.ok (pyStr "ccdd"))
          (expandVersionTemplates sampleTemplateUrl (pyStr "1.2.0")))
          = some (pyStr "ccdd")
      ∧ sampleFields.sha256 = some (pyStr "aabb")
      ∧ pyStr "aabb" ≠ []
      ∧ ('\n') ∉ pyStr "aabb"
      ∧ sampleUrlLine ∈ pySplitlines sampleContent
      ∧ isVersionLine sampleUrlLine = false
      ∧ ¬ pyStr "aabb" <:+: sampleUrlLine)
    ∧ (update_recipe_source (SourceEntry.plain sampleFields) (pyStr "1.0.0")
          (some (pyStr "1.2.0")) (fun _ => DownloadResult.ok (pyStr "ccdd"))
          false sampleContent
        = (applyUrlUpdate sampleContent (pyStr "aabb") (pyStr "1.2.0")
            (pyStr "ccdd"), SyncOutcome.updated)
      ∧ pyStrip sampleUrlLine <:+:
          applyUrlUpdate sampleContent (pyStr "aabb") (pyStr "1.2.0")
            (pyStr "ccdd")) :=
  ⟨⟨rfl, rfl, by decide, by decide, by decide, rfl, rfl, by decide, by decide,
      by decide, by decide, by decide⟩,
    template_url_preserved sampleFields (pyStr "1.0.0") (pyStr "1.2.0")
      sampleContent (fun _ => DownloadResult.ok (pyStr "ccdd"))
      sampleTemplateUrl (pyStr "aabb") (pyStr "ccdd") sampleUrlLine
      rfl rfl (by decide) (by decide) (by decide) rfl rfl (by decide)
      (by decide) (by decide) (by decide) (by decide)⟩

/-- Witness for claim C10 at the concrete descriptor. -/
theorem update_write_frame_witness :
    (pyStr "aabb" ≠ [] ∧ ('\n') ∉ pyStr "aabb")
    ∧ applyUrlUpdate sampleContent (pyStr "aabb") (pyStr "1.2.0") (pyStr "ccdd")
      = pyStrip (joinNl ((rewriteFirstVersionLine (pyStr "1.2.0")
          (pySplitlines sampleContent)).map
            (replaceAll (pyStr "aabb") (pyStr "ccdd")))) :=
  ⟨⟨by decide, by decide⟩,
    update_write_frame sampleContent (pyStr "aabb") (pyStr "1.2.0")
      (pyStr "ccdd") (by decide) (by decide)⟩

/-- Witness for the amended claim C7 at a concrete tag and package. -/
theorem clean_tag_idempotent_amended_witness :
    ((githubPrefixes.all fun q =>
        !(toLowerStr q).isPrefixOf
          (toLowerStr (github_clean_tag_name (pyStr "v1.2.3") (pyStr "pkg"))))
        = true
      ∧ (pyStr "pkg").isPrefixOf
          (git_clean_tag_name (pyStr "v1.2.3") (pyStr "pkg")) = false
      ∧ (pyStr "v").isPrefixOf
          (git_clean_tag_name (pyStr "v1.2.3") (pyStr "pkg")) = false)
    ∧ (github_clean_tag_name
          (github_clean_tag_name (pyStr "v1.2.3") (pyStr "pkg")) (pyStr "pkg")
        = github_clean_tag_name (pyStr "v1.2.3") (pyStr "pkg")
      ∧ git_clean_tag_name
          (git_clean_tag_name (pyStr "v1.2.3") (pyStr "pkg")) (pyStr "pkg")
        = git_clean_tag_name (pyStr "v1.2.3") (pyStr "pkg")) :=
  ⟨⟨by decide, by decide, by decide⟩,
    clean_tag_idempotent_amended (pyStr "v1.2.3") (pyStr "pkg")
      (by decide) (by decide) (by decide)⟩

/-- Witness for the amended claim C8 at a concrete repository URL. -/
theorem resolver_exclusive_plain_https_witness :
    ((gitSupportedSchemes.any fun scheme =>
        isSubOf scheme (pyStr "https://github.com/" ++ pyStr "owner/repo"))
        = false)
    ∧ (github_can_handle (pyStr "https://github.com/" ++ pyStr "owner/repo")
          = true
      ∧ git_can_handle (pyStr "https://github.com/" ++ pyStr "owner/repo")
          = false) :=
  ⟨by decide, resolver_exclusive_plain_https (pyStr "owner/repo") (by decide)⟩

/-- Witness for the amended claim C9 at one error. -/
theorem exit_status_amended_witness :
    0 < 1 ∧ (main_exit_code false 1 = 1 ∧ main_exit_code true 1 = 0) :=
  ⟨by decide, exit_status_amended 1 (by decide)⟩
